import Mathlib

/-!
Verification of the Cash Cleaner Simulator packing optimiser
(`cash_cleaner_optimizer.py`).

The development is a shallow embedding of the search engine: Python integers
become `Int` (Python's floor division `//` is `Int.fdiv`, Python's `%` with a
positive modulus is `Int.emod`), the dense stock dict becomes a total function
`Int → Int`, and functions that can raise become `Option`-valued, with `none`
standing for a raised exception.  The recursive searches mutate a scratch
array `cur` in the source and copy it on emission; since every emitted
solution is a fresh copy, the searches are embedded as pure recursions that
return the emitted lists in the same order.
-/

/-- Notes per ideal bundle: the `BUNDLE_SIZE` constant of the source. -/
def BUNDLE_SIZE : Int := 100

/-- Bundles per ideal block: the `BLOCK_SIZE` constant of the source. -/
def BLOCK_SIZE : Int := 30

/-- Sentinel for unlimited stock: the `_INFTY = 10 ** 9` constant. -/
def _INFTY : Int := 10 ^ 9

/-- The currency codes that are keys of the `CURRENCIES` table. -/
inductive Currency
  | USD
  | EUR
  | JPY
deriving DecidableEq

/-- The `CURRENCIES` table mapping each code to its denomination list. -/
def CURRENCIES : Currency → List Int
  | .USD => [100, 50, 20, 10]
  | .EUR => [100, 50, 20]
  | .JPY => [10000, 5000, 1000]

/-- Python `range(n)` over the integers: `[0, 1, ..., n - 1]`, empty when
`n ≤ 0`. -/
def intRange (n : Int) : List Int :=
  (List.range n.toNat).map Int.ofNat

/-- One step of a stable descending insertion sort: the inserted element is
placed before the first strictly larger-or-equal... it is placed before the
first element it is `≥`, so elements equal to `x` that were already in the
list stay behind `x` only if they come first; see `sortDesc`. -/
def insertDesc (x : Int) : List Int → List Int
  | [] => [x]
  | y :: ys => if x ≥ y then x :: y :: ys else y :: insertDesc x ys

/-- Stable descending sort, the embedding of Python
`sorted(denoms, reverse=True)`. -/
def sortDesc : List Int → List Int
  | [] => []
  | x :: xs => insertDesc x (sortDesc xs)

/-- Pairwise product sum over zipped lists, the embedding of
`sum(x * y for x, y in zip(xs, ys))`. -/
def dotInt : List Int → List Int → Int
  | x :: xs, y :: ys => x * y + dotInt xs ys
  | _, _ => 0

/-- Minimum of the non-empty list `d :: ds`: Python `min(denoms)`. -/
def listMin (d : Int) (ds : List Int) : Int :=
  ds.foldl min d

/-- The depth-first search `_search_blocks` of the source, with the running
index replaced by structural recursion over the denomination suffix.  At the
last denomination the bundle count is solved directly
(`needed_bundles = value_left // d if d else 0`); at every earlier
denomination the loop ranges over
`range(min(bundles_left, stock[d], value_left // d) + 1)`.  The source's
`value_left // d` raises `ZeroDivisionError` when a non-final denomination is
`0`; that corner (reachable only when the sorted list holds a zero with
negative denominations after it, excluded by the data model) is totalised
here by `Int.fdiv`'s `x.fdiv 0 = 0`. -/
def _search_blocks (stock : Int → Int) : List Int → Int → Int → List (List Int)
  | [], _, _ => []
  | [d], bundles_left, value_left =>
      let needed_bundles := if d = 0 then 0 else value_left.fdiv d
      if value_left = d * needed_bundles ∧ needed_bundles = bundles_left ∧
          needed_bundles ≤ stock d then
        [[needed_bundles]]
      else []
  | d :: d' :: ds, bundles_left, value_left =>
      let max_for_d := min bundles_left (min (stock d) (value_left.fdiv d))
      (intRange (max_for_d + 1)).flatMap
        (fun b =>
          (_search_blocks stock (d' :: ds) (bundles_left - b) (value_left - d * b)).map
            (fun c => b :: c))

/-- The depth-first search `_search_bundles` of the source: the same shape as
`_search_blocks` without the bundles-remaining dimension.  The same
`ZeroDivisionError` corner is totalised the same way. -/
def _search_bundles (stock : Int → Int) : List Int → Int → List (List Int)
  | [], _ => []
  | [d], value_left =>
      let needed := if d = 0 then 0 else value_left.fdiv d
      if value_left = d * needed ∧ needed ≤ stock d then [[needed]] else []
  | d :: d' :: ds, value_left =>
      let max_for_d := min (stock d) (value_left.fdiv d)
      (intRange (max_for_d + 1)).flatMap
        (fun b =>
          (_search_bundles stock (d' :: ds) (value_left - d * b)).map (fun c => b :: c))

/-- The `for blocks in range(1, max_blocks + 1)` loop of
`_enumerate_ideal_configs`, including its early `break` when
`blocks * BLOCK_SIZE` exceeds the total stock.  `fuel` is the number of
remaining iterations (`max_blocks.toNat` at the first call) and `blocks` the
current loop counter (starting at `1`). -/
def idealLoop (stock : Int → Int) (denoms : List Int) (units total_stock_bundles : Int) :
    Nat → Int → List (Int × List Int)
  | 0, _ => []
  | fuel + 1, blocks =>
      let bundles_total := blocks * BLOCK_SIZE
      if bundles_total > total_stock_bundles then []
      else
        (_search_blocks stock denoms bundles_total units).map (fun c => (blocks, c)) ++
          idealLoop stock denoms units total_stock_bundles fuel (blocks + 1)

/-- The `_enumerate_ideal_configs` function.  `none` models a raised
exception: `ValueError` from `min(denoms)` on an empty list, or
`ZeroDivisionError` when `min(denoms) * BUNDLE_SIZE * BLOCK_SIZE` is zero.
Both happen after the early `return []` for amounts not divisible by
`BUNDLE_SIZE`. -/
def _enumerate_ideal_configs (amount : Int) (denoms : List Int) (stock : Int → Int) :
    Option (List (Int × List Int)) :=
  if amount.emod BUNDLE_SIZE ≠ 0 then some []
  else
    match sortDesc denoms with
    | [] => none
    | d0 :: ds =>
        let units := amount.fdiv BUNDLE_SIZE
        let smallest := listMin d0 ds
        if smallest = 0 then none
        else
          let theoretical_max_blocks := amount.fdiv (smallest * BUNDLE_SIZE * BLOCK_SIZE)
          let total_stock_bundles := ((d0 :: ds).map stock).sum
          let max_blocks := min theoretical_max_blocks (total_stock_bundles.fdiv BLOCK_SIZE)
          some (idealLoop stock (d0 :: ds) units total_stock_bundles max_blocks.toNat 1)

/-- The `_enumerate_loose_configs` function.  `none` models the `IndexError`
raised by `_search_bundles` when the denomination list is empty (the index
`0` is out of range before the `i == len(denoms) - 1` base case can fire). -/
def _enumerate_loose_configs (amount : Int) (denoms : List Int) (stock : Int → Int) :
    Option (List (List Int)) :=
  if amount.emod BUNDLE_SIZE ≠ 0 then some []
  else
    match sortDesc denoms with
    | [] => none
    | d0 :: ds => some (_search_bundles stock (d0 :: ds) (amount.fdiv BUNDLE_SIZE))

/-- The `_score_ideal` key `(blocks, kinds, -avg)`.  The source computes
`avg` with Python float division; the embedding uses the exact rational
quotient instead, which is the one idealisation of this development (no
ranking-order claim is proved from it). -/
def _score_ideal (blocks : Int) (bundle_counts : List Int) (denoms : List Int) :
    Int × Int × ℚ :=
  let kinds : Int := ((bundle_counts.filter (fun c => c != 0)).length : Int)
  let avg : ℚ := ((dotInt denoms bundle_counts : Int) : ℚ) / ((bundle_counts.sum : Int) : ℚ)
  (blocks, kinds, -avg)

/-- The `_score_loose` key `(total_bundles, kinds, -avg)`, with the same
rational idealisation of the float quotient as `_score_ideal`. -/
def _score_loose (bundle_counts : List Int) (denoms : List Int) : Int × Int × ℚ :=
  let total_bundles := bundle_counts.sum
  let kinds : Int := ((bundle_counts.filter (fun c => c != 0)).length : Int)
  let avg : ℚ := ((dotInt denoms bundle_counts : Int) : ℚ) / ((total_bundles : Int) : ℚ)
  (total_bundles, kinds, -avg)

/-- Lexicographic less-or-equal on score triples: Python tuple comparison. -/
def scoreLE (a b : Int × Int × ℚ) : Bool :=
  if a.1 ≠ b.1 then decide (a.1 < b.1)
  else if a.2.1 ≠ b.2.1 then decide (a.2.1 < b.2.1)
  else decide (a.2.2 ≤ b.2.2)

/-- One step of a stable ascending insertion sort by score key. -/
def insertScored {α : Type} (key : α → Int × Int × ℚ) (x : α) : List α → List α
  | [] => [x]
  | y :: ys => if scoreLE (key x) (key y) then x :: y :: ys else y :: insertScored key x ys

/-- Stable ascending sort by score key, the embedding of
`raw.sort(key=...)`. -/
def sortScored {α : Type} (key : α → Int × Int × ℚ) : List α → List α
  | [] => []
  | x :: xs => insertScored key x (sortScored key xs)

/-- Last-wins lookup in an association list, the read of a Python dict built
by successive `stock[d] = qty` assignments. -/
def dictGet (bs : List (Int × Int)) (d : Int) : Option Int :=
  bs.foldl (fun acc p => if p.1 = d then some p.2 else acc) none

/-- The `_normalise_stock` function: every denomination defaults to the
`_INFTY` sentinel and caller-supplied entries override it.  The dense dict is
embedded as a total function; the source only ever reads it at keys of the
denomination list, where the two agree (an empty `bundles_stock` dict is
falsy in Python and is treated like `None`, which the embedding matches
because looking up in an empty association list also yields the default). -/
def _normalise_stock (denoms : List Int) (bundles_stock : Option (List (Int × Int))) :
    Int → Int :=
  fun d =>
    match bundles_stock with
    | none => _INFTY
    | some bs =>
        match dictGet bs d with
        | some qty => qty
        | none => _INFTY

/-- The public `find_ideal_block_variants`, with the currency code as a key
of the `CURRENCIES` table and `islice(raw, max_variants)` as `List.take`.
The `raw.any` guard models the `ZeroDivisionError` that `_score_ideal` would
raise while the sort computes the key of a solution with a zero bundle
total. -/
def find_ideal_block_variants (amount : Int) (currency_code : Currency) (max_variants : Nat)
    (bundles_stock : Option (List (Int × Int))) : Option (List (Int × List Int)) :=
  let denoms := CURRENCIES currency_code
  let stock := _normalise_stock denoms bundles_stock
  match _enumerate_ideal_configs amount denoms stock with
  | none => none
  | some raw =>
      if raw.any (fun tpl => tpl.2.sum == 0) then none
      else some ((sortScored (fun tpl => _score_ideal tpl.1 tpl.2 denoms) raw).take max_variants)

/-- The public `find_loose_bundle_variants`, embedded like
`find_ideal_block_variants`; the `raw.any` guard models the
`ZeroDivisionError` that `_score_loose` raises on a zero bundle total. -/
def find_loose_bundle_variants (amount : Int) (currency_code : Currency) (max_variants : Nat)
    (bundles_stock : Option (List (Int × Int))) : Option (List (List Int)) :=
  let denoms := CURRENCIES currency_code
  let stock := _normalise_stock denoms bundles_stock
  match _enumerate_loose_configs amount denoms stock with
  | none => none
  | some raw =>
      if raw.any (fun bc => bc.sum == 0) then none
      else some ((sortScored (fun bc => _score_loose bc denoms) raw).take max_variants)

/-! Basic helper lemmas about the embedding's list utilities. -/

theorem mem_intRange {b n : Int} : b ∈ intRange n ↔ 0 ≤ b ∧ b < n := by
  unfold intRange
  constructor
  · intro h
    rcases List.mem_map.mp h with ⟨k, hk, rfl⟩
    rw [Int.ofNat_eq_coe]
    exact ⟨Int.natCast_nonneg k, Int.lt_toNat.mp (List.mem_range.mp hk)⟩
  · rintro ⟨hb, hn⟩
    have h1 : b.toNat ∈ List.range n.toNat :=
      List.mem_range.mpr (Int.lt_toNat.mpr (by rwa [Int.toNat_of_nonneg hb]))
    have h2 := List.mem_map_of_mem Int.ofNat h1
    rwa [Int.ofNat_eq_coe, Int.toNat_of_nonneg hb] at h2

theorem intRange_eq_nil {n : Int} (h : n ≤ 0) : intRange n = [] := by
  simp [intRange, Int.toNat_eq_zero.mpr h]

theorem dotInt_nonneg : ∀ (c d : List Int), (∀ x ∈ c, 0 ≤ x) → (∀ y ∈ d, 0 ≤ y) →
    0 ≤ dotInt c d
  | [], d, _, _ => by cases d <;> simp [dotInt]
  | x :: xs, [], _, _ => by simp [dotInt]
  | x :: xs, y :: ys, hc, hd => by
      have hx : 0 ≤ x := hc x (by simp)
      have hy : 0 ≤ y := hd y (by simp)
      have ih := dotInt_nonneg xs ys (fun a ha => hc a (by simp [ha]))
        (fun a ha => hd a (by simp [ha]))
      have : 0 ≤ x * y := mul_nonneg hx hy
      simp only [dotInt]
      linarith

theorem le_dotInt_of_min : ∀ (c d : List Int) (m : Int), c.length = d.length →
    (∀ x ∈ c, 0 ≤ x) → (∀ y ∈ d, m ≤ y) → m * c.sum ≤ dotInt c d
  | [], [], m, _, _, _ => by simp [dotInt]
  | x :: xs, y :: ys, m, hlen, hc, hd => by
      have hx : 0 ≤ x := hc x (by simp)
      have hy : m ≤ y := hd y (by simp)
      have ih := le_dotInt_of_min xs ys m (by simpa using hlen)
        (fun a ha => hc a (by simp [ha])) (fun a ha => hd a (by simp [ha]))
      have h1 : x * m ≤ x * y := mul_le_mul_of_nonneg_left hy hx
      simp only [dotInt, List.sum_cons]
      nlinarith
  | [], y :: ys, m, hlen, _, _ => by simp at hlen
  | x :: xs, [], m, hlen, _, _ => by simp at hlen

theorem sum_le_sum_of_forall₂ (stock : Int → Int) :
    ∀ {c d : List Int}, List.Forall₂ (fun x e => x ≤ stock e) c d →
      c.sum ≤ (d.map stock).sum := by
  intro c d h
  induction h with
  | nil => simp
  | cons hxy _ ih => simpa using add_le_add hxy ih

theorem sortDesc_eq_self : ∀ {l : List Int}, List.Pairwise (· ≥ ·) l → sortDesc l = l
  | [], _ => rfl
  | x :: xs, h => by
      have hx : ∀ y ∈ xs, x ≥ y := (List.pairwise_cons.mp h).1
      have ih := sortDesc_eq_self (List.pairwise_cons.mp h).2
      simp only [sortDesc, ih]
      cases xs with
      | nil => rfl
      | cons y ys => simp [insertDesc, hx y (by simp)]

theorem listMin_le : ∀ (ds : List Int) (d x : Int), x = d ∨ x ∈ ds → listMin d ds ≤ x
  | [], d, x, h => by
      rcases h with rfl | h
      · exact le_refl x
      · simp at h
  | e :: es, d, x, h => by
      have step : listMin d (e :: es) = listMin (min d e) es := rfl
      rcases h with rfl | h
      · calc listMin x (e :: es) = listMin (min x e) es := rfl
          _ ≤ _ := by
            rcases listMin_le es (min x e) (min x e) (Or.inl rfl) with h'
            exact le_trans h' (min_le_left _ _)
      · rcases List.mem_cons.mp h with rfl | h'
        · rw [step]
          exact le_trans (listMin_le es (min d x) (min d x) (Or.inl rfl)) (min_le_right _ _)
        · rw [step]
          exact listMin_le es (min d e) x (Or.inr h')

theorem listMin_mem : ∀ (ds : List Int) (d : Int), listMin d ds = d ∨ listMin d ds ∈ ds
  | [], d => Or.inl rfl
  | e :: es, d => by
      have step : listMin d (e :: es) = listMin (min d e) es := rfl
      rcases listMin_mem es (min d e) with h | h
      · rcases min_choice d e with h' | h'
        · exact Or.inl (by rw [step, h, h'])
        · exact Or.inr (by rw [step, h, h']; simp)
      · exact Or.inr (by rw [step]; simp [h])

theorem mem_insertScored {α : Type} (key : α → Int × Int × ℚ) (x a : α) :
    ∀ l : List α, a ∈ insertScored key x l ↔ a = x ∨ a ∈ l
  | [] => by simp [insertScored]
  | y :: ys => by
      simp only [insertScored]
      split
      · simp [or_comm, List.mem_cons]
      · simp only [List.mem_cons, mem_insertScored key x a ys]
        tauto

theorem mem_sortScored {α : Type} (key : α → Int × Int × ℚ) (a : α) :
    ∀ l : List α, a ∈ sortScored key l ↔ a ∈ l
  | [] => Iff.rfl
  | x :: xs => by
      simp only [sortScored, mem_insertScored, mem_sortScored key a xs, List.mem_cons]

theorem length_insertScored {α : Type} (key : α → Int × Int × ℚ) (x : α) :
    ∀ l : List α, (insertScored key x l).length = l.length + 1
  | [] => rfl
  | y :: ys => by
      simp only [insertScored]
      split
      · simp
      · simp [length_insertScored key x ys]

theorem length_sortScored {α : Type} (key : α → Int × Int × ℚ) :
    ∀ l : List α, (sortScored key l).length = l.length
  | [] => rfl
  | x :: xs => by
      simp [sortScored, length_insertScored, length_sortScored key xs]

/-! Soundness and completeness of the two depth-first searches. -/

theorem search_blocks_sound : ∀ (denoms : List Int) (stock : Int → Int)
    (bundles_left value_left : Int) (c : List Int),
    c ∈ _search_blocks stock denoms bundles_left value_left →
    c.length = denoms.length ∧ c.sum = bundles_left ∧ dotInt c denoms = value_left ∧
      List.Forall₂ (fun x e => x ≤ stock e) c denoms
  | [], stock, bl, vl, c, h => by simp [_search_blocks] at h
  | [d], stock, bl, vl, c, h => by
      simp only [_search_blocks] at h
      generalize hX : (if d = 0 then (0 : Int) else vl.fdiv d) = X at h
      split at h
      · rename_i hc
        rw [List.mem_singleton] at h
        subst h
        obtain ⟨h1, h2, h3⟩ := hc
        refine ⟨by simp, by simpa using h2, ?_, List.Forall₂.cons h3 List.Forall₂.nil⟩
        simp only [dotInt]
        linarith [h1, mul_comm d X]
      · simp at h
  | d :: d' :: ds, stock, bl, vl, c, h => by
      simp only [_search_blocks] at h
      rw [List.mem_flatMap] at h
      obtain ⟨b, hb, hc⟩ := h
      rw [List.mem_map] at hc
      obtain ⟨c', hc', rfl⟩ := hc
      obtain ⟨hb0, hb1⟩ := mem_intRange.mp hb
      obtain ⟨ihlen, ihsum, ihdot, ihst⟩ :=
        search_blocks_sound (d' :: ds) stock (bl - b) (vl - d * b) c' hc'
      refine ⟨by simpa using ihlen, by simp [List.sum_cons, ihsum], ?_, ?_⟩
      · simp only [dotInt, ihdot]
        ring
      · exact List.Forall₂.cons (by omega) ihst

theorem search_blocks_nonneg : ∀ (denoms : List Int) (stock : Int → Int)
    (bundles_left value_left : Int) (c : List Int), 0 ≤ bundles_left →
    c ∈ _search_blocks stock denoms bundles_left value_left → ∀ x ∈ c, 0 ≤ x
  | [], stock, bl, vl, c, _, h => by simp [_search_blocks] at h
  | [d], stock, bl, vl, c, hbl, h => by
      simp only [_search_blocks] at h
      generalize hX : (if d = 0 then (0 : Int) else vl.fdiv d) = X at h
      split at h
      · rename_i hc
        rw [List.mem_singleton] at h
        subst h
        intro x hx
        rw [List.mem_singleton] at hx
        subst hx
        omega
      · simp at h
  | d :: d' :: ds, stock, bl, vl, c, hbl, h => by
      simp only [_search_blocks] at h
      rw [List.mem_flatMap] at h
      obtain ⟨b, hb, hc⟩ := h
      rw [List.mem_map] at hc
      obtain ⟨c', hc', rfl⟩ := hc
      obtain ⟨hb0, hb1⟩ := mem_intRange.mp hb
      have ih := search_blocks_nonneg (d' :: ds) stock (bl - b) (vl - d * b) c'
        (by omega) hc'
      intro x hx
      rcases List.mem_cons.mp hx with rfl | hx'
      · exact hb0
      · exact ih x hx'

theorem search_blocks_complete : ∀ (denoms : List Int) (stock : Int → Int)
    (bundles_left value_left : Int) (c : List Int),
    (∀ e ∈ denoms, 0 < e) → 0 ≤ bundles_left →
    c.length = denoms.length → (∀ x ∈ c, 0 ≤ x) → c.sum = bundles_left →
    dotInt c denoms = value_left →
    List.Forall₂ (fun x e => x ≤ stock e) c denoms → denoms ≠ [] →
    c ∈ _search_blocks stock denoms bundles_left value_left
  | [], _, _, _, _, _, _, _, _, _, _, _, hne => absurd rfl hne
  | [d], stock, bl, vl, c, hpos, hbl, hlen, hnn, hsum, hdot, hst, _ => by
      have hd : 0 < d := hpos d (by simp)
      have hdne : d ≠ 0 := ne_of_gt hd
      cases c with
      | nil => simp at hlen
      | cons x xs =>
        cases xs with
        | cons y ys => simp at hlen
        | nil =>
          have hx : x * d = vl := by simpa [dotInt] using hdot
          have hxbl : x = bl := by simpa using hsum
          have hxst : x ≤ stock d := (List.forall₂_cons.mp hst).1
          have hfd : vl.fdiv d = x := by
            rw [← hx]
            exact Int.mul_fdiv_cancel x hdne
          simp only [_search_blocks, if_neg hdne, hfd]
          rw [if_pos ⟨by rw [← hx]; ring, hxbl, hxst⟩]
          simp
  | d :: d' :: ds, stock, bl, vl, c, hpos, hbl, hlen, hnn, hsum, hdot, hst, _ => by
      have hd : 0 < d := hpos d (by simp)
      cases c with
      | nil => simp at hlen
      | cons x c' =>
        have hlen' : c'.length = (d' :: ds).length := by simpa using hlen
        obtain ⟨hxst, hst'⟩ := List.forall₂_cons.mp hst
        have hx0 : 0 ≤ x := hnn x (by simp)
        have hnn' : ∀ a ∈ c', 0 ≤ a := fun a ha => hnn a (by simp [ha])
        have hsum_c : x + c'.sum = bl := by simpa [List.sum_cons] using hsum
        have hsum_nn : 0 ≤ c'.sum := List.sum_nonneg hnn'
        have hdot_c : x * d + dotInt c' (d' :: ds) = vl := by
          simpa only [dotInt] using hdot
        have hdot' : dotInt c' (d' :: ds) = vl - d * x := by
          have hcomm : x * d = d * x := mul_comm x d
          linarith
        have hdot_nn : 0 ≤ dotInt c' (d' :: ds) :=
          dotInt_nonneg c' (d' :: ds) hnn'
            (fun y hy => le_of_lt (hpos y (by simp [hy])))
        have hxvd : x ≤ vl.fdiv d := by
          rw [Int.fdiv_eq_ediv vl (le_of_lt hd), Int.le_ediv_iff_mul_le hd]
          have hcomm : x * d = d * x := mul_comm x d
          linarith
        have hbmem : x ∈ intRange (min bl (min (stock d) (vl.fdiv d)) + 1) := by
          rw [mem_intRange]
          have hxbl : x ≤ bl := by omega
          refine ⟨hx0, ?_⟩
          have hmin : x ≤ min bl (min (stock d) (vl.fdiv d)) :=
            le_min hxbl (le_min hxst hxvd)
          omega
        have hrec := search_blocks_complete (d' :: ds) stock (bl - x) (vl - d * x) c'
          (fun e he => hpos e (by simp [he])) (by omega) hlen' hnn'
          (by omega) hdot' hst' (by simp)
        simp only [_search_blocks]
        rw [List.mem_flatMap]
        exact ⟨x, hbmem, List.mem_map.mpr ⟨c', hrec, rfl⟩⟩

theorem search_bundles_sound : ∀ (denoms : List Int) (stock : Int → Int)
    (value_left : Int) (c : List Int),
    c ∈ _search_bundles stock denoms value_left →
    c.length = denoms.length ∧ dotInt c denoms = value_left ∧
      List.Forall₂ (fun x e => x ≤ stock e) c denoms
  | [], stock, vl, c, h => by simp [_search_bundles] at h
  | [d], stock, vl, c, h => by
      simp only [_search_bundles] at h
      generalize hX : (if d = 0 then (0 : Int) else vl.fdiv d) = X at h
      split at h
      · rename_i hc
        rw [List.mem_singleton] at h
        subst h
        obtain ⟨h1, h2⟩ := hc
        refine ⟨by simp, ?_, List.Forall₂.cons h2 List.Forall₂.nil⟩
        simp only [dotInt]
        linarith [h1, mul_comm d X]
      · simp at h
  | d :: d' :: ds, stock, vl, c, h => by
      simp only [_search_bundles] at h
      rw [List.mem_flatMap] at h
      obtain ⟨b, hb, hc⟩ := h
      rw [List.mem_map] at hc
      obtain ⟨c', hc', rfl⟩ := hc
      obtain ⟨hb0, hb1⟩ := mem_intRange.mp hb
      obtain ⟨ihlen, ihdot, ihst⟩ :=
        search_bundles_sound (d' :: ds) stock (vl - d * b) c' hc'
      refine ⟨by simpa using ihlen, ?_, ?_⟩
      · simp only [dotInt, ihdot]
        ring
      · exact List.Forall₂.cons (by omega) ihst

theorem search_bundles_nonneg : ∀ (denoms : List Int) (stock : Int → Int)
    (value_left : Int) (c : List Int),
    (∀ e ∈ denoms, 0 < e) → 0 ≤ value_left →
    c ∈ _search_bundles stock denoms value_left → ∀ x ∈ c, 0 ≤ x
  | [], stock, vl, c, _, _, h => by simp [_search_bundles] at h
  | [d], stock, vl, c, hpos, hvl, h => by
      have hd : 0 < d := hpos d (by simp)
      simp only [_search_bundles, if_neg (ne_of_gt hd)] at h
      split at h
      · rename_i hc
        rw [List.mem_singleton] at h
        subst h
        intro x hx
        rw [List.mem_singleton] at hx
        subst hx
        rw [Int.fdiv_eq_ediv vl (le_of_lt hd)]
        exact Int.ediv_nonneg hvl (le_of_lt hd)
      · simp at h
  | d :: d' :: ds, stock, vl, c, hpos, hvl, h => by
      have hd : 0 < d := hpos d (by simp)
      simp only [_search_bundles] at h
      rw [List.mem_flatMap] at h
      obtain ⟨b, hb, hc⟩ := h
      rw [List.mem_map] at hc
      obtain ⟨c', hc', rfl⟩ := hc
      obtain ⟨hb0, hb1⟩ := mem_intRange.mp hb
      have hbf : b ≤ vl.fdiv d := by omega
      have hbd : b * d ≤ vl := by
        rw [Int.fdiv_eq_ediv vl (le_of_lt hd)] at hbf
        exact (Int.le_ediv_iff_mul_le hd).mp hbf
      have hvl' : 0 ≤ vl - d * b := by
        have := mul_comm b d
        linarith
      have ih := search_bundles_nonneg (d' :: ds) stock (vl - d * b) c'
        (fun e he => hpos e (by simp [he])) hvl' hc'
      intro x hx
      rcases List.mem_cons.mp hx with rfl | hx'
      · exact hb0
      · exact ih x hx'

theorem search_bundles_neg (d d' : Int) (ds : List Int) (stock : Int → Int)
    (value_left : Int) (hd : 0 < d) (hvl : value_left < 0) :
    _search_bundles stock (d :: d' :: ds) value_left = [] := by
  have hfd : value_left.fdiv d < 0 := by
    rw [Int.fdiv_eq_ediv value_left (le_of_lt hd)]
    exact Int.ediv_neg' hvl hd
  have : min (stock d) (value_left.fdiv d) + 1 ≤ 0 := by omega
  simp only [_search_bundles, intRange_eq_nil this, List.flatMap_nil]

theorem search_bundles_zero : ∀ (denoms : List Int) (stock : Int → Int),
    denoms ≠ [] → (∀ e ∈ denoms, 0 ≤ stock e) →
    _search_bundles stock denoms 0 = [List.replicate denoms.length 0]
  | [], _, hne, _ => absurd rfl hne
  | [d], stock, _, hst => by
      simp only [_search_bundles, Int.zero_fdiv, ite_self]
      rw [if_pos ⟨by ring, hst d (by simp)⟩]
      simp
  | d :: d' :: ds, stock, _, hst => by
      have h1 : min (stock d) (Int.fdiv 0 d) = 0 := by
        rw [Int.zero_fdiv]
        exact min_eq_right (hst d (by simp))
      have ih := search_bundles_zero (d' :: ds) stock (by simp)
        (fun e he => hst e (by simp [he]))
      simp only [_search_bundles, h1]
      have hr : intRange (0 + 1) = [0] := by decide
      rw [hr]
      simp [ih, List.replicate]

theorem search_blocks_subset_bundles : ∀ (denoms : List Int) (stock : Int → Int)
    (bundles_left value_left : Int) (c : List Int),
    c ∈ _search_blocks stock denoms bundles_left value_left →
    c ∈ _search_bundles stock denoms value_left
  | [], _, _, _, _, h => by simp [_search_blocks] at h
  | [d], stock, bl, vl, c, h => by
      simp only [_search_blocks] at h
      simp only [_search_bundles]
      generalize hX : (if d = 0 then (0 : Int) else vl.fdiv d) = X at h ⊢
      split at h
      · rename_i hc
        rw [List.mem_singleton] at h
        subst h
        rw [if_pos ⟨hc.1, hc.2.2⟩]
        simp
      · simp at h
  | d :: d' :: ds, stock, bl, vl, c, h => by
      simp only [_search_blocks] at h
      rw [List.mem_flatMap] at h
      obtain ⟨b, hb, hc⟩ := h
      rw [List.mem_map] at hc
      obtain ⟨c', hc', rfl⟩ := hc
      obtain ⟨hb0, hb1⟩ := mem_intRange.mp hb
      simp only [_search_bundles]
      rw [List.mem_flatMap]
      refine ⟨b, ?_, List.mem_map.mpr
        ⟨c', search_blocks_subset_bundles (d' :: ds) stock (bl - b) (vl - d * b) c' hc', rfl⟩⟩
      rw [mem_intRange]
      exact ⟨hb0, by omega⟩

/-! The outer loop over block counts. -/

theorem idealLoop_sound (stock : Int → Int) (denoms : List Int) (units total : Int) :
    ∀ (fuel : Nat) (start blocks : Int) (c : List Int),
    (blocks, c) ∈ idealLoop stock denoms units total fuel start →
    start ≤ blocks ∧ blocks * BLOCK_SIZE ≤ total ∧
      c ∈ _search_blocks stock denoms (blocks * BLOCK_SIZE) units := by
  intro fuel
  induction fuel with
  | zero => intro start blocks c h; simp [idealLoop] at h
  | succ n ih =>
      intro start blocks c h
      simp only [idealLoop] at h
      split at h
      · simp at h
      · rename_i hle
        rw [List.mem_append] at h
        rcases h with h | h
        · rw [List.mem_map] at h
          obtain ⟨c₀, hc₀, heq⟩ := h
          have h1 : start = blocks := congrArg Prod.fst heq
          have h2 : c₀ = c := congrArg Prod.snd heq
          subst h1
          subst h2
          exact ⟨le_refl _, by omega, hc₀⟩
        · obtain ⟨h1, h2, h3⟩ := ih (start + 1) blocks c h
          exact ⟨by omega, h2, h3⟩

theorem idealLoop_complete (stock : Int → Int) (denoms : List Int) (units total : Int) :
    ∀ (fuel : Nat) (start blocks : Int) (c : List Int),
    start ≤ blocks → blocks < start + (fuel : Int) → blocks * BLOCK_SIZE ≤ total →
    c ∈ _search_blocks stock denoms (blocks * BLOCK_SIZE) units →
    (blocks, c) ∈ idealLoop stock denoms units total fuel start := by
  intro fuel
  induction fuel with
  | zero => intro start blocks c h1 h2 _ _; omega
  | succ n ih =>
      intro start blocks c h1 h2 h3 h4
      have hstart : start * BLOCK_SIZE ≤ total := by
        have : start * BLOCK_SIZE ≤ blocks * BLOCK_SIZE :=
          mul_le_mul_of_nonneg_right h1 (by norm_num [BLOCK_SIZE])
        omega
      simp only [idealLoop]
      rw [if_neg (by omega)]
      rw [List.mem_append]
      rcases eq_or_lt_of_le h1 with rfl | hlt
      · exact Or.inl (List.mem_map.mpr ⟨c, h4, rfl⟩)
      · refine Or.inr (ih (start + 1) blocks c (by omega) ?_ h3 h4)
        omega

/-! From the enumeration wrappers down to the searches. -/

theorem fdiv_mul_BUNDLE (amount : Int) (h : amount.emod BUNDLE_SIZE = 0) :
    amount.fdiv BUNDLE_SIZE * BUNDLE_SIZE = amount := by
  have hb : (0 : Int) < BUNDLE_SIZE := by norm_num [BUNDLE_SIZE]
  rw [Int.fdiv_eq_ediv amount (le_of_lt hb)]
  exact Int.ediv_mul_cancel (Int.dvd_of_emod_eq_zero h)

theorem enumerate_ideal_sound (amount : Int) (denoms : List Int) (stock : Int → Int)
    (raw : List (Int × List Int)) (blocks : Int) (c : List Int)
    (heq : _enumerate_ideal_configs amount denoms stock = some raw)
    (hmem : (blocks, c) ∈ raw) :
    amount.emod BUNDLE_SIZE = 0 ∧ 1 ≤ blocks ∧
      c ∈ _search_blocks stock (sortDesc denoms) (blocks * BLOCK_SIZE)
        (amount.fdiv BUNDLE_SIZE) := by
  simp only [_enumerate_ideal_configs] at heq
  split at heq
  · injection heq with heq'
    subst heq'
    simp at hmem
  · rename_i hmod
    have hmod' : amount.emod BUNDLE_SIZE = 0 := not_not.mp hmod
    split at heq
    · exact absurd heq (by simp)
    · rename_i d0 ds hsort
      split at heq
      · exact absurd heq (by simp)
      · injection heq with heq'
        subst heq'
        obtain ⟨h1, _, h3⟩ := idealLoop_sound stock (d0 :: ds) (amount.fdiv BUNDLE_SIZE)
          (((d0 :: ds).map stock).sum) _ 1 blocks c hmem
        rw [hsort]
        exact ⟨hmod', h1, h3⟩

theorem enumerate_loose_sound (amount : Int) (denoms : List Int) (stock : Int → Int)
    (raw : List (List Int)) (c : List Int)
    (heq : _enumerate_loose_configs amount denoms stock = some raw)
    (hmem : c ∈ raw) :
    amount.emod BUNDLE_SIZE = 0 ∧
      c ∈ _search_bundles stock (sortDesc denoms) (amount.fdiv BUNDLE_SIZE) := by
  simp only [_enumerate_loose_configs] at heq
  split at heq
  · injection heq with heq'
    subst heq'
    simp at hmem
  · rename_i hmod
    have hmod' : amount.emod BUNDLE_SIZE = 0 := not_not.mp hmod
    split at heq
    · exact absurd heq (by simp)
    · rename_i d0 ds hsort
      injection heq with heq'
      subst heq'
      rw [hsort]
      exact ⟨hmod', hmem⟩

theorem find_ideal_mem (amount : Int) (cur : Currency) (maxv : Nat)
    (bs : Option (List (Int × Int))) (l : List (Int × List Int))
    (h : find_ideal_block_variants amount cur maxv bs = some l) :
    ∃ raw, _enumerate_ideal_configs amount (CURRENCIES cur)
        (_normalise_stock (CURRENCIES cur) bs) = some raw ∧
      (∀ p ∈ l, p ∈ raw) ∧ l.length = min maxv raw.length := by
  simp only [find_ideal_block_variants] at h
  split at h
  · exact absurd h (by simp)
  · rename_i raw hraw
    split at h
    · exact absurd h (by simp)
    · injection h with h'
      subst h'
      refine ⟨raw, hraw, ?_, ?_⟩
      · intro p hp
        exact (mem_sortScored _ p raw).mp (List.mem_of_mem_take hp)
      · rw [List.length_take, length_sortScored]

theorem find_loose_mem (amount : Int) (cur : Currency) (maxv : Nat)
    (bs : Option (List (Int × Int))) (l : List (List Int))
    (h : find_loose_bundle_variants amount cur maxv bs = some l) :
    ∃ raw, _enumerate_loose_configs amount (CURRENCIES cur)
        (_normalise_stock (CURRENCIES cur) bs) = some raw ∧
      (∀ c ∈ l, c ∈ raw) ∧ l.length = min maxv raw.length := by
  simp only [find_loose_bundle_variants] at h
  split at h
  · exact absurd h (by simp)
  · rename_i raw hraw
    split at h
    · exact absurd h (by simp)
    · injection h with h'
      subst h'
      refine ⟨raw, hraw, ?_, ?_⟩
      · intro c hc
        exact (mem_sortScored _ c raw).mp (List.mem_of_mem_take hc)
      · rw [List.length_take, length_sortScored]

theorem sortDesc_CURRENCIES (cur : Currency) : sortDesc (CURRENCIES cur) = CURRENCIES cur := by
  cases cur <;> decide

theorem CURRENCIES_pos (cur : Currency) : ∀ d ∈ CURRENCIES cur, 0 < d := by
  cases cur <;> decide

/-! Completeness of the grouped enumeration. -/

theorem enumerate_ideal_complete (amount : Int) (denoms : List Int) (stock : Int → Int)
    (blocks : Int) (config : List Int)
    (hpos : ∀ d ∈ denoms, 0 < d) (hsorted : List.Pairwise (· ≥ ·) denoms)
    (hne : denoms ≠ []) (hmod : amount.emod BUNDLE_SIZE = 0)
    (hblocks : 1 ≤ blocks) (hlen : config.length = denoms.length)
    (hnn : ∀ x ∈ config, 0 ≤ x) (hsum : config.sum = blocks * BLOCK_SIZE)
    (hdot : dotInt config denoms = amount.fdiv BUNDLE_SIZE)
    (hst : List.Forall₂ (fun x d => x ≤ stock d) config denoms) :
    ∃ raw, _enumerate_ideal_configs amount denoms stock = some raw ∧
      (blocks, config) ∈ raw ∧ blocks * BLOCK_SIZE ≤ (denoms.map stock).sum ∧
      (∀ d0 ds, denoms = d0 :: ds →
        blocks ≤ amount.fdiv (listMin d0 ds * BUNDLE_SIZE * BLOCK_SIZE)) := by
  cases denoms with
  | nil => exact absurd rfl hne
  | cons d0 ds =>
    have hsds : sortDesc (d0 :: ds) = d0 :: ds := sortDesc_eq_self hsorted
    have hsmem : listMin d0 ds = d0 ∨ listMin d0 ds ∈ ds := listMin_mem ds d0
    have hsmpos : 0 < listMin d0 ds := by
      rcases hsmem with h | h
      · rw [h]
        exact hpos d0 (by simp)
      · exact hpos _ (by simp [h])
    have hsmne : ¬(listMin d0 ds = 0) := by omega
    have h30 : (0 : Int) < BLOCK_SIZE := by norm_num [BLOCK_SIZE]
    have h100 : (0 : Int) < BUNDLE_SIZE := by norm_num [BUNDLE_SIZE]
    have htotal : blocks * BLOCK_SIZE ≤ ((d0 :: ds).map stock).sum := by
      have := sum_le_sum_of_forall₂ stock hst
      omega
    have hfdtot : blocks ≤ (((d0 :: ds).map stock).sum).fdiv BLOCK_SIZE := by
      rw [Int.fdiv_eq_ediv _ (le_of_lt h30), Int.le_ediv_iff_mul_le h30]
      exact htotal
    have hmin_le : ∀ y ∈ (d0 :: ds), listMin d0 ds ≤ y := by
      intro y hy
      rcases List.mem_cons.mp hy with rfl | hy'
      · exact listMin_le ds y y (Or.inl rfl)
      · exact listMin_le ds d0 y (Or.inr hy')
    have hunits : listMin d0 ds * (blocks * BLOCK_SIZE) ≤ amount.fdiv BUNDLE_SIZE := by
      have := le_dotInt_of_min config (d0 :: ds) (listMin d0 ds) hlen hnn hmin_le
      rw [hsum, hdot] at this
      exact this
    have htheo : blocks ≤ amount.fdiv (listMin d0 ds * BUNDLE_SIZE * BLOCK_SIZE) := by
      have hdivpos : (0 : Int) < listMin d0 ds * BUNDLE_SIZE * BLOCK_SIZE := by positivity
      rw [Int.fdiv_eq_ediv _ (le_of_lt hdivpos), Int.le_ediv_iff_mul_le hdivpos]
      have hamount : amount.fdiv BUNDLE_SIZE * BUNDLE_SIZE = amount := fdiv_mul_BUNDLE amount hmod
      have step := mul_le_mul_of_nonneg_right hunits (le_of_lt h100)
      rw [hamount] at step
      calc blocks * (listMin d0 ds * BUNDLE_SIZE * BLOCK_SIZE)
          = listMin d0 ds * (blocks * BLOCK_SIZE) * BUNDLE_SIZE := by ring
        _ ≤ amount := step
    have hmb : blocks ≤ min (amount.fdiv (listMin d0 ds * BUNDLE_SIZE * BLOCK_SIZE))
        ((((d0 :: ds).map stock).sum).fdiv BLOCK_SIZE) := le_min htheo hfdtot
    have hmbnn : (0 : Int) ≤ min (amount.fdiv (listMin d0 ds * BUNDLE_SIZE * BLOCK_SIZE))
        ((((d0 :: ds).map stock).sum).fdiv BLOCK_SIZE) := by omega
    have hsearch := search_blocks_complete (d0 :: ds) stock (blocks * BLOCK_SIZE)
      (amount.fdiv BUNDLE_SIZE) config hpos
      (mul_nonneg (by omega) (le_of_lt h30)) hlen hnn hsum hdot hst (by simp)
    have hcast := Int.toNat_of_nonneg hmbnn
    have hloop := idealLoop_complete stock (d0 :: ds) (amount.fdiv BUNDLE_SIZE)
      (((d0 :: ds).map stock).sum)
      ((min (amount.fdiv (listMin d0 ds * BUNDLE_SIZE * BLOCK_SIZE))
        ((((d0 :: ds).map stock).sum).fdiv BLOCK_SIZE)).toNat) 1 blocks config
      hblocks (by omega) htotal hsearch
    refine ⟨_, ?_, hloop, htotal, ?_⟩
    · simp only [_enumerate_ideal_configs, hsds, hmod]
      simp [hsmne]
    · intro e es heq
      rw [List.cons.injEq] at heq
      obtain ⟨h1, h2⟩ := heq
      subst h1
      subst h2
      exact htheo

/-! Edge-case behaviour of the two pipelines. -/

theorem ediv_nonpos_of_nonpos {a b : Int} (ha : a ≤ 0) (hb : 0 < b) : a / b ≤ 0 := by
  rcases lt_or_eq_of_le ha with h | h
  · exact le_of_lt (Int.ediv_neg' h hb)
  · rw [h]
    simp

theorem enumerate_ideal_indivisible (amount : Int) (denoms : List Int) (stock : Int → Int)
    (h : amount.emod BUNDLE_SIZE ≠ 0) :
    _enumerate_ideal_configs amount denoms stock = some [] := by
  simp only [_enumerate_ideal_configs]
  rw [if_pos h]

theorem enumerate_loose_indivisible (amount : Int) (denoms : List Int) (stock : Int → Int)
    (h : amount.emod BUNDLE_SIZE ≠ 0) :
    _enumerate_loose_configs amount denoms stock = some [] := by
  simp only [_enumerate_loose_configs]
  rw [if_pos h]

theorem enumerate_ideal_nonpos (amount : Int) (d0 : Int) (ds denoms : List Int)
    (stock : Int → Int) (hs : sortDesc denoms = d0 :: ds)
    (hmod : amount.emod BUNDLE_SIZE = 0) (hsm : 0 < listMin d0 ds) (ha : amount ≤ 0) :
    _enumerate_ideal_configs amount denoms stock = some [] := by
  have hdivpos : (0 : Int) < listMin d0 ds * BUNDLE_SIZE * BLOCK_SIZE := by
    have h100 : (0 : Int) < BUNDLE_SIZE := by norm_num [BUNDLE_SIZE]
    have h30 : (0 : Int) < BLOCK_SIZE := by norm_num [BLOCK_SIZE]
    positivity
  have htheo : amount.fdiv (listMin d0 ds * BUNDLE_SIZE * BLOCK_SIZE) ≤ 0 := by
    rw [Int.fdiv_eq_ediv _ (le_of_lt hdivpos)]
    exact ediv_nonpos_of_nonpos ha hdivpos
  have hmin : min (amount.fdiv (listMin d0 ds * BUNDLE_SIZE * BLOCK_SIZE))
      ((((d0 :: ds).map stock).sum).fdiv BLOCK_SIZE) ≤ 0 := by omega
  have htn : (min (amount.fdiv (listMin d0 ds * BUNDLE_SIZE * BLOCK_SIZE))
      ((((d0 :: ds).map stock).sum).fdiv BLOCK_SIZE)).toNat = 0 :=
    Int.toNat_eq_zero.mpr hmin
  simp only [_enumerate_ideal_configs, hs, hmod]
  have hsmne : ¬(listMin d0 ds = 0) := by omega
  simp only [hsmne]
  simp only [htn]
  simp [idealLoop]

theorem enumerate_loose_neg (amount : Int) (cur : Currency) (stock : Int → Int)
    (hmod : amount.emod BUNDLE_SIZE = 0) (ha : amount < 0) :
    _enumerate_loose_configs amount (CURRENCIES cur) stock = some [] := by
  have hu : amount.fdiv BUNDLE_SIZE < 0 := by
    rw [Int.fdiv_eq_ediv _ (by norm_num [BUNDLE_SIZE] : (0 : Int) ≤ BUNDLE_SIZE)]
    exact Int.ediv_neg' ha (by norm_num [BUNDLE_SIZE])
  cases cur with
  | USD =>
      have hs : sortDesc (CURRENCIES Currency.USD) = 100 :: 50 :: [20, 10] := by decide
      simp only [_enumerate_loose_configs, hs, hmod]
      rw [search_bundles_neg 100 50 [20, 10] stock _ (by norm_num) hu]
      simp
  | EUR =>
      have hs : sortDesc (CURRENCIES Currency.EUR) = 100 :: 50 :: [20] := by decide
      simp only [_enumerate_loose_configs, hs, hmod]
      rw [search_bundles_neg 100 50 [20] stock _ (by norm_num) hu]
      simp
  | JPY =>
      have hs : sortDesc (CURRENCIES Currency.JPY) = 10000 :: 5000 :: [1000] := by decide
      simp only [_enumerate_loose_configs, hs, hmod]
      rw [search_bundles_neg 10000 5000 [1000] stock _ (by norm_num) hu]
      simp

theorem enumerate_loose_zero (cur : Currency) (stock : Int → Int)
    (hst : ∀ e ∈ CURRENCIES cur, 0 ≤ stock e) :
    _enumerate_loose_configs 0 (CURRENCIES cur) stock =
      some [List.replicate (CURRENCIES cur).length 0] := by
  have hs := sortDesc_CURRENCIES cur
  cases hcur : CURRENCIES cur with
  | nil => cases cur <;> simp [CURRENCIES] at hcur
  | cons d0 ds =>
      rw [hcur] at hs hst
      simp only [_enumerate_loose_configs, hcur, hs]
      rw [if_neg (by decide)]
      rw [show (0 : Int).fdiv BUNDLE_SIZE = 0 by decide]
      rw [search_bundles_zero (d0 :: ds) stock (by simp) hst]

theorem find_ideal_of_enum_nil (amount : Int) (cur : Currency) (maxv : Nat)
    (bs : Option (List (Int × Int)))
    (h : _enumerate_ideal_configs amount (CURRENCIES cur)
      (_normalise_stock (CURRENCIES cur) bs) = some []) :
    find_ideal_block_variants amount cur maxv bs = some [] := by
  simp only [find_ideal_block_variants, h]
  simp [sortScored]

theorem find_loose_of_enum_nil (amount : Int) (cur : Currency) (maxv : Nat)
    (bs : Option (List (Int × Int)))
    (h : _enumerate_loose_configs amount (CURRENCIES cur)
      (_normalise_stock (CURRENCIES cur) bs) = some []) :
    find_loose_bundle_variants amount cur maxv bs = some [] := by
  simp only [find_loose_bundle_variants, h]
  simp [sortScored]

theorem find_loose_zero (cur : Currency) (maxv : Nat) (bs : Option (List (Int × Int)))
    (hst : ∀ e ∈ CURRENCIES cur, 0 ≤ _normalise_stock (CURRENCIES cur) bs e) :
    find_loose_bundle_variants 0 cur maxv bs = none := by
  simp only [find_loose_bundle_variants, enumerate_loose_zero cur _ hst]
  rw [if_pos]
  simp [List.sum_replicate]

theorem forall₂_le_and_zero {stock : Int → Int} :
    ∀ {c d : List Int}, List.Forall₂ (fun x e => x ≤ stock e) c d →
      (∀ x ∈ c, 0 ≤ x) →
      List.Forall₂ (fun x e => x ≤ stock e ∧ (stock e = 0 → x = 0)) c d := by
  intro c d h
  induction h with
  | nil => exact fun _ => List.Forall₂.nil
  | cons hxy htail ih =>
      rename_i x e c' d'
      intro hnn
      exact List.Forall₂.cons
        ⟨hxy, fun hz => le_antisymm (hz ▸ hxy) (hnn x (by simp))⟩
        (ih (fun a ha => hnn a (by simp [ha])))

theorem loose_config_nonneg (amount : Int) (cur : Currency) (stock : Int → Int)
    (c : List Int)
    (h : c ∈ _search_bundles stock (sortDesc (CURRENCIES cur)) (amount.fdiv BUNDLE_SIZE)) :
    ∀ x ∈ c, 0 ≤ x := by
  rw [sortDesc_CURRENCIES] at h
  rcases le_or_lt 0 (amount.fdiv BUNDLE_SIZE) with hu | hu
  · exact search_bundles_nonneg (CURRENCIES cur) stock _ c (CURRENCIES_pos cur) hu h
  · exfalso
    cases cur with
    | USD =>
        rw [show CURRENCIES Currency.USD = 100 :: 50 :: [20, 10] from rfl,
          search_bundles_neg 100 50 [20, 10] stock _ (by norm_num) hu] at h
        simp at h
    | EUR =>
        rw [show CURRENCIES Currency.EUR = 100 :: 50 :: [20] from rfl,
          search_bundles_neg 100 50 [20] stock _ (by norm_num) hu] at h
        simp at h
    | JPY =>
        rw [show CURRENCIES Currency.JPY = 10000 :: 5000 :: [1000] from rfl,
          search_bundles_neg 10000 5000 [1000] stock _ (by norm_num) hu] at h
        simp at h

/-- C1: Exactness of every returned solution: for every amount, currency,
stock map and max_variants, every configuration in the output of
`find_ideal_block_variants` (second pair component) and every configuration
in the output of `find_loose_bundle_variants` satisfies
`dotInt c denoms * BUNDLE_SIZE = amount`, where `denoms` is the currency's
denomination list (already sorted descending in the `CURRENCIES` table). -/
theorem C1_exactness (amount : Int) (cur : Currency) (maxv : Nat)
    (bs : Option (List (Int × Int))) :
    (∀ l, find_ideal_block_variants amount cur maxv bs = some l →
      ∀ p ∈ l, dotInt p.2 (CURRENCIES cur) * BUNDLE_SIZE = amount) ∧
    (∀ l, find_loose_bundle_variants amount cur maxv bs = some l →
      ∀ c ∈ l, dotInt c (CURRENCIES cur) * BUNDLE_SIZE = amount) := by
  constructor
  · intro l hl p hp
    obtain ⟨raw, hraw, hsub, _⟩ := find_ideal_mem amount cur maxv bs l hl
    obtain ⟨hmod, _, hsearch⟩ := enumerate_ideal_sound amount (CURRENCIES cur) _ raw p.1 p.2
      hraw (by simpa using hsub p hp)
    obtain ⟨_, _, hdot, _⟩ := search_blocks_sound _ _ _ _ _ hsearch
    rw [sortDesc_CURRENCIES] at hdot
    rw [hdot]
    exact fdiv_mul_BUNDLE amount hmod
  · intro l hl c hc
    obtain ⟨raw, hraw, hsub, _⟩ := find_loose_mem amount cur maxv bs l hl
    obtain ⟨hmod, hsearch⟩ := enumerate_loose_sound amount (CURRENCIES cur) _ raw c hraw
      (hsub c hc)
    obtain ⟨_, hdot, _⟩ := search_bundles_sound _ _ _ _ hsearch
    rw [sortDesc_CURRENCIES] at hdot
    rw [hdot]
    exact fdiv_mul_BUNDLE amount hmod

/-- C3: Grouping invariant: every pair `(blocks, c)` returned by
`find_ideal_block_variants` and every pair returned by
`_enumerate_ideal_configs` satisfies `c.sum = blocks * BLOCK_SIZE` with
`blocks ≥ 1`. -/
theorem C3_grouping_invariant (amount : Int) (cur : Currency) (maxv : Nat)
    (bs : Option (List (Int × Int))) (denoms : List Int) (stock : Int → Int) :
    (∀ l, find_ideal_block_variants amount cur maxv bs = some l →
      ∀ p ∈ l, p.2.sum = p.1 * BLOCK_SIZE ∧ 1 ≤ p.1) ∧
    (∀ raw, _enumerate_ideal_configs amount denoms stock = some raw →
      ∀ p ∈ raw, p.2.sum = p.1 * BLOCK_SIZE ∧ 1 ≤ p.1) := by
  have henum : ∀ (dn : List Int) (st : Int → Int) raw,
      _enumerate_ideal_configs amount dn st = some raw →
      ∀ p : Int × List Int, p ∈ raw → p.2.sum = p.1 * BLOCK_SIZE ∧ 1 ≤ p.1 := by
    intro dn st raw hraw p hp
    obtain ⟨_, hb, hsearch⟩ := enumerate_ideal_sound amount dn st raw p.1 p.2 hraw
      (by simpa using hp)
    obtain ⟨_, hsum, _, _⟩ := search_blocks_sound _ _ _ _ _ hsearch
    exact ⟨hsum, hb⟩
  constructor
  · intro l hl p hp
    obtain ⟨raw, hraw, hsub, _⟩ := find_ideal_mem amount cur maxv bs l hl
    exact henum _ _ raw hraw p (hsub p hp)
  · intro raw hraw p hp
    exact henum denoms stock raw hraw p hp

/-- C4: Stock respect: every configuration returned by
`find_ideal_block_variants` or `find_loose_bundle_variants` is pointwise
bounded by the normalised stock (caller-supplied count where present, the
unlimited sentinel otherwise), and a normalised stock of `0` forces a zero
count at that denomination. -/
theorem C4_stock_respect (amount : Int) (cur : Currency) (maxv : Nat)
    (bs : Option (List (Int × Int))) :
    (∀ l, find_ideal_block_variants amount cur maxv bs = some l →
      ∀ p ∈ l, List.Forall₂
        (fun x d => x ≤ _normalise_stock (CURRENCIES cur) bs d ∧
          (_normalise_stock (CURRENCIES cur) bs d = 0 → x = 0)) p.2 (CURRENCIES cur)) ∧
    (∀ l, find_loose_bundle_variants amount cur maxv bs = some l →
      ∀ c ∈ l, List.Forall₂
        (fun x d => x ≤ _normalise_stock (CURRENCIES cur) bs d ∧
          (_normalise_stock (CURRENCIES cur) bs d = 0 → x = 0)) c (CURRENCIES cur)) := by
  constructor
  · intro l hl p hp
    obtain ⟨raw, hraw, hsub, _⟩ := find_ideal_mem amount cur maxv bs l hl
    obtain ⟨_, hb, hsearch⟩ := enumerate_ideal_sound amount (CURRENCIES cur) _ raw p.1 p.2
      hraw (by simpa using hsub p hp)
    obtain ⟨_, _, _, hst⟩ := search_blocks_sound _ _ _ _ _ hsearch
    have hnn := search_blocks_nonneg _ _ _ _ _
      (mul_nonneg (by omega) (by norm_num [BLOCK_SIZE])) hsearch
    rw [sortDesc_CURRENCIES] at hst
    exact forall₂_le_and_zero hst hnn
  · intro l hl c hc
    obtain ⟨raw, hraw, hsub, _⟩ := find_loose_mem amount cur maxv bs l hl
    obtain ⟨_, hsearch⟩ := enumerate_loose_sound amount (CURRENCIES cur) _ raw c hraw
      (hsub c hc)
    have hnn := loose_config_nonneg amount cur _ c hsearch
    obtain ⟨_, _, hst⟩ := search_bundles_sound _ _ _ _ hsearch
    rw [sortDesc_CURRENCIES] at hst
    exact forall₂_le_and_zero hst hnn

/-- C7: Loose superset: every configuration underlying a grouped solution of
`_enumerate_ideal_configs` also appears in the output of
`_enumerate_loose_configs` on the same amount, denominations and stock. -/
theorem C7_loose_superset (amount : Int) (denoms : List Int) (stock : Int → Int)
    (raw : List (Int × List Int)) (p : Int × List Int)
    (h : _enumerate_ideal_configs amount denoms stock = some raw) (hp : p ∈ raw) :
    ∃ lraw, _enumerate_loose_configs amount denoms stock = some lraw ∧ p.2 ∈ lraw := by
  obtain ⟨hmod, _, hsearch⟩ := enumerate_ideal_sound amount denoms stock raw p.1 p.2 h
    (by simpa using hp)
  have hb := search_blocks_subset_bundles _ _ _ _ _ hsearch
  cases hsort : sortDesc denoms with
  | nil =>
      rw [hsort] at hb
      simp [_search_bundles] at hb
  | cons d0 ds =>
      rw [hsort] at hb
      refine ⟨_search_bundles stock (d0 :: ds) (amount.fdiv BUNDLE_SIZE), ?_, hb⟩
      simp [_enumerate_loose_configs, hsort, hmod]

/-- C2: Completeness of the grouped enumeration: for every positive amount
divisible by `BUNDLE_SIZE`, every non-empty descending list of (positive)
denominations and every dense stock map, every pair `(blocks, config)` with
`blocks ≥ 1` whose configuration has the right length, non-negative entries,
`config.sum = blocks * BLOCK_SIZE`, exact value `amount / BUNDLE_SIZE` and
pointwise stock bounds is returned by `_enumerate_ideal_configs`; in
particular the computed upper bound
`min(amount // (min denoms * BUNDLE_SIZE * BLOCK_SIZE), total_stock // BLOCK_SIZE)`
excludes no such pair. -/
theorem C2_completeness (amount : Int) (denoms : List Int) (stock : Int → Int)
    (blocks : Int) (config : List Int)
    (hamount : 0 < amount) (hmod : amount.emod BUNDLE_SIZE = 0)
    (hne : denoms ≠ []) (hsorted : List.Pairwise (· ≥ ·) denoms)
    (hpos : ∀ d ∈ denoms, 0 < d)
    (hblocks : 1 ≤ blocks) (hlen : config.length = denoms.length)
    (hnn : ∀ x ∈ config, 0 ≤ x) (hsum : config.sum = blocks * BLOCK_SIZE)
    (hdot : dotInt config denoms = amount.fdiv BUNDLE_SIZE)
    (hst : List.Forall₂ (fun x d => x ≤ stock d) config denoms) :
    ∃ raw, _enumerate_ideal_configs amount denoms stock = some raw ∧
      (blocks, config) ∈ raw ∧ blocks * BLOCK_SIZE ≤ (denoms.map stock).sum ∧
      (∀ d0 ds, denoms = d0 :: ds →
        blocks ≤ amount.fdiv (listMin d0 ds * BUNDLE_SIZE * BLOCK_SIZE)) :=
  enumerate_ideal_complete amount denoms stock blocks config hpos hsorted hne hmod
    hblocks hlen hnn hsum hdot hst

/-- C5 counterexample: at amount 0 — a non-positive amount divisible by
`BUNDLE_SIZE` — the loose search does not return an empty list: the
enumeration emits the all-zero configuration and `_score_loose` divides by
its zero bundle total while sorting, so the call raises `ZeroDivisionError`
(modelled as `none`). -/
theorem C5_edge_policy_counterexample :
    find_loose_bundle_variants 0 Currency.USD 5 none = none := by decide

/-- C5 (amended): if the amount is not divisible by `BUNDLE_SIZE`, both
public searches return an empty list without error; if the amount is
non-positive and divisible, the grouped search returns an empty list, and
the loose search returns an empty list when the amount is negative — but at
amount exactly 0 (with non-negative normalised stock) the loose search
raises `ZeroDivisionError` instead of returning an empty list. -/
theorem C5_edge_policy_amended (amount : Int) (cur : Currency) (maxv : Nat)
    (bs : Option (List (Int × Int)))
    (h : amount ≤ 0 ∨ amount.emod BUNDLE_SIZE ≠ 0) :
    find_ideal_block_variants amount cur maxv bs = some [] ∧
    (amount < 0 ∨ amount.emod BUNDLE_SIZE ≠ 0 →
      find_loose_bundle_variants amount cur maxv bs = some []) ∧
    (amount = 0 →
      (∀ e ∈ CURRENCIES cur, 0 ≤ _normalise_stock (CURRENCIES cur) bs e) →
      find_loose_bundle_variants amount cur maxv bs = none) := by
  refine ⟨?_, ?_, ?_⟩
  · by_cases hmod : amount.emod BUNDLE_SIZE = 0
    · rcases h with ha | ha
      · cases cur with
        | USD =>
            exact find_ideal_of_enum_nil amount Currency.USD maxv bs
              (enumerate_ideal_nonpos amount 100 [50, 20, 10] (CURRENCIES Currency.USD)
                (_normalise_stock (CURRENCIES Currency.USD) bs) (by decide) hmod
                (by decide) ha)
        | EUR =>
            exact find_ideal_of_enum_nil amount Currency.EUR maxv bs
              (enumerate_ideal_nonpos amount 100 [50, 20] (CURRENCIES Currency.EUR)
                (_normalise_stock (CURRENCIES Currency.EUR) bs) (by decide) hmod
                (by decide) ha)
        | JPY =>
            exact find_ideal_of_enum_nil amount Currency.JPY maxv bs
              (enumerate_ideal_nonpos amount 10000 [5000, 1000] (CURRENCIES Currency.JPY)
                (_normalise_stock (CURRENCIES Currency.JPY) bs) (by decide) hmod
                (by decide) ha)
      · exact absurd hmod ha
    · exact find_ideal_of_enum_nil _ _ _ _ (enumerate_ideal_indivisible _ _ _ hmod)
  · intro h'
    by_cases hmod : amount.emod BUNDLE_SIZE = 0
    · rcases h' with ha | ha
      · exact find_loose_of_enum_nil _ _ _ _ (enumerate_loose_neg amount cur _ hmod ha)
      · exact absurd hmod ha
    · exact find_loose_of_enum_nil _ _ _ _ (enumerate_loose_indivisible _ _ _ hmod)
  · intro ha hst
    subst ha
    exact find_loose_zero cur maxv bs hst

/-- C5 witness: the amended edge policy instantiated at amount -100, USD,
default (unlimited) stock. -/
theorem C5_edge_policy_witness :
    ((-100 : Int) ≤ 0 ∨ (-100 : Int).emod BUNDLE_SIZE ≠ 0) ∧
    (find_ideal_block_variants (-100) Currency.USD 5 none = some [] ∧
      ((-100 : Int) < 0 ∨ (-100 : Int).emod BUNDLE_SIZE ≠ 0 →
        find_loose_bundle_variants (-100) Currency.USD 5 none = some []) ∧
      ((-100 : Int) = 0 →
        (∀ e ∈ CURRENCIES Currency.USD,
          0 ≤ _normalise_stock (CURRENCIES Currency.USD) none e) →
        find_loose_bundle_variants (-100) Currency.USD 5 none = none)) :=
  ⟨by decide, C5_edge_policy_amended (-100) Currency.USD 5 none (by decide)⟩

/-- C8 counterexample: at amount 0 there is exactly one feasible loose
solution (the all-zero configuration), so the claim requires
`find_loose_bundle_variants` to return a list of length `min 3 1 = 1`; the
function instead raises (modelled as `none`) and returns no list. -/
theorem C8_bounded_output_counterexample :
    (∃ raw, _enumerate_loose_configs 0 (CURRENCIES Currency.USD)
        (_normalise_stock (CURRENCIES Currency.USD) none) = some raw ∧
      raw.length = 1) ∧
    find_loose_bundle_variants 0 Currency.USD 3 none = none := by
  constructor
  · exact ⟨[[0, 0, 0, 0]], by decide, by decide⟩
  · decide

/-- C9 counterexample: with amount 750000, USD denominations and stock
{100: 18, 50: 40} (20 and 10 unlimited after normalisation), no enumerated
grouped configuration uses only the denominations 100 and 50: eighteen
hundred-bundles and forty fifty-bundles reach at most 3800 of the required
7500 units, so the claimed configuration does not exist in the output. -/
theorem C9_scenarioB_counterexample :
    ¬ ∃ raw blocks c100 c50,
      _enumerate_ideal_configs 750000 [100, 50, 20, 10]
        (_normalise_stock [100, 50, 20, 10] (some [(100, 18), (50, 40)])) = some raw ∧
      (blocks, [c100, c50, 0, 0]) ∈ raw := by
  rintro ⟨raw, blocks, c100, c50, hraw, hmem⟩
  obtain ⟨hmod, hb, hsearch⟩ :=
    enumerate_ideal_sound _ _ _ raw blocks [c100, c50, 0, 0] hraw hmem
  rw [show sortDesc [100, 50, 20, 10] = [100, 50, 20, 10] from by decide] at hsearch
  obtain ⟨_, _, hdot, hst⟩ := search_blocks_sound _ _ _ _ _ hsearch
  have hnn := search_blocks_nonneg _ _ _ _ _
    (mul_nonneg (by omega) (by norm_num [BLOCK_SIZE])) hsearch
  have hc100 : 0 ≤ c100 := hnn c100 (by simp)
  have hc50 : 0 ≤ c50 := hnn c50 (by simp)
  have hdot' : c100 * 100 + c50 * 50 = 7500 := by
    rw [show (750000 : Int).fdiv BUNDLE_SIZE = 7500 from by decide] at hdot
    simp only [dotInt] at hdot
    linarith
  have h100 : c100 ≤ 18 := by
    have h1 := (List.forall₂_cons.mp hst).1
    rwa [show _normalise_stock [100, 50, 20, 10] (some [(100, 18), (50, 40)]) 100 = 18
      from by decide] at h1
  have h50 : c50 ≤ 40 := by
    have h1 := (List.forall₂_cons.mp (List.forall₂_cons.mp hst).2).1
    rwa [show _normalise_stock [100, 50, 20, 10] (some [(100, 18), (50, 40)]) 50 = 40
      from by decide] at h1
  omega

/-- C9 (amended): Scenario B with amount 750000, USD denominations and stock
{100: 18, 50: 40} (20 and 10 unlimited after normalisation): the grouped
search does find a configuration summing to 7500 units within stock whose
bundle count is a whole multiple of BLOCK_SIZE — for example 750 bundles of
denomination 10 forming 25 blocks — but no configuration can use only the
denominations 100 and 50, whose stock caps the reachable value at
3800 < 7500 units (see the counterexample). -/
theorem C9_scenarioB_amended :
    ∃ raw, _enumerate_ideal_configs 750000 [100, 50, 20, 10]
        (_normalise_stock [100, 50, 20, 10] (some [(100, 18), (50, 40)])) = some raw ∧
      (25, [0, 0, 0, 750]) ∈ raw ∧
      ([0, 0, 0, 750] : List Int).sum = 25 * BLOCK_SIZE ∧
      dotInt [0, 0, 0, 750] [100, 50, 20, 10] * BUNDLE_SIZE = 750000 := by
  obtain ⟨raw, hraw, hmem, _, _⟩ := enumerate_ideal_complete 750000 [100, 50, 20, 10]
    (_normalise_stock [100, 50, 20, 10] (some [(100, 18), (50, 40)])) 25 [0, 0, 0, 750]
    (by decide) (by decide) (by decide) (by decide) (by decide) (by decide) (by decide)
    (by decide) (by decide)
    (List.Forall₂.cons (by decide) (List.Forall₂.cons (by decide)
      (List.Forall₂.cons (by decide) (List.Forall₂.cons (by decide) List.Forall₂.nil))))
  exact ⟨raw, hraw, hmem, by decide, by decide⟩

/-- C1 witness: exactness at a concrete grouped call and its returned
solution. -/
theorem C1_exactness_witness :
    find_ideal_block_variants 300000 Currency.USD 5
        (some [(100, 30), (50, 0), (20, 0), (10, 0)]) = some [(1, [30, 0, 0, 0])] ∧
    dotInt [30, 0, 0, 0] (CURRENCIES Currency.USD) * BUNDLE_SIZE = 300000 :=
  ⟨by decide,
    (C1_exactness 300000 Currency.USD 5 (some [(100, 30), (50, 0), (20, 0), (10, 0)])).1
      [(1, [30, 0, 0, 0])] (by decide) (1, [30, 0, 0, 0]) (by decide)⟩

/-- C2 witness: completeness instantiated at a one-denomination list with
unlimited stock, where the unique solution (1 block, 30 bundles of 100) must
be returned. -/
theorem C2_completeness_witness :
    ((0 : Int) < 300000 ∧ (300000 : Int).emod BUNDLE_SIZE = 0 ∧
      ([100] : List Int) ≠ [] ∧ List.Pairwise (· ≥ ·) ([100] : List Int) ∧
      (∀ d ∈ ([100] : List Int), 0 < d) ∧ (1 : Int) ≤ 1 ∧
      ([30] : List Int).length = ([100] : List Int).length ∧
      (∀ x ∈ ([30] : List Int), 0 ≤ x) ∧ ([30] : List Int).sum = 1 * BLOCK_SIZE ∧
      dotInt [30] [100] = (300000 : Int).fdiv BUNDLE_SIZE) ∧
    (∃ raw, _enumerate_ideal_configs 300000 [100] (fun _ => _INFTY) = some raw ∧
      (1, [30]) ∈ raw ∧
      1 * BLOCK_SIZE ≤ (([100] : List Int).map (fun _ => _INFTY)).sum ∧
      (∀ d0 ds, ([100] : List Int) = d0 :: ds →
        (1 : Int) ≤ (300000 : Int).fdiv (listMin d0 ds * BUNDLE_SIZE * BLOCK_SIZE))) :=
  ⟨⟨by decide, by decide, by decide, by decide, by decide, by decide, by decide,
    by decide, by decide, by decide⟩,
    C2_completeness 300000 [100] (fun _ => _INFTY) 1 [30] (by decide) (by decide)
      (by decide) (by decide) (by decide) (by decide) (by decide) (by decide) (by decide)
      (by decide) (List.Forall₂.cons (by decide) List.Forall₂.nil)⟩

/-- C3 witness: the grouping invariant at a concrete EUR call. -/
theorem C3_grouping_invariant_witness :
    find_ideal_block_variants 300000 Currency.EUR 5
        (some [(100, 30), (50, 0), (20, 0)]) = some [(1, [30, 0, 0])] ∧
    (((1 : Int), ([30, 0, 0] : List Int)).2.sum =
        ((1 : Int), ([30, 0, 0] : List Int)).1 * BLOCK_SIZE ∧
      (1 : Int) ≤ ((1 : Int), ([30, 0, 0] : List Int)).1) :=
  ⟨by decide,
    (C3_grouping_invariant 300000 Currency.EUR 5 (some [(100, 30), (50, 0), (20, 0)])
        [] (fun _ => 0)).1
      [(1, [30, 0, 0])] (by decide) (1, [30, 0, 0]) (by decide)⟩

/-- C4 witness: stock respect at a concrete USD call whose stock pins the
100, 20 and 10 denominations to zero. -/
theorem C4_stock_respect_witness :
    find_ideal_block_variants 150000 Currency.USD 5
        (some [(100, 0), (50, 30), (20, 0), (10, 0)]) = some [(1, [0, 30, 0, 0])] ∧
    List.Forall₂ (fun x d =>
        x ≤ _normalise_stock (CURRENCIES Currency.USD)
            (some [(100, 0), (50, 30), (20, 0), (10, 0)]) d ∧
        (_normalise_stock (CURRENCIES Currency.USD)
            (some [(100, 0), (50, 30), (20, 0), (10, 0)]) d = 0 → x = 0))
      [0, 30, 0, 0] (CURRENCIES Currency.USD) :=
  ⟨by decide,
    (C4_stock_respect 150000 Currency.USD 5
        (some [(100, 0), (50, 30), (20, 0), (10, 0)])).1
      [(1, [0, 30, 0, 0])] (by decide) (1, [0, 30, 0, 0]) (by decide)⟩

/-- C7 witness: the superset relation at a concrete JPY enumeration. -/
theorem C7_loose_superset_witness :
    (_enumerate_ideal_configs 30000000 [10000, 5000, 1000]
        (_normalise_stock [10000, 5000, 1000] (some [(10000, 30), (5000, 0), (1000, 0)])) =
      some [(1, [30, 0, 0])] ∧
      ((1 : Int), ([30, 0, 0] : List Int)) ∈ ([(1, [30, 0, 0])] : List (Int × List Int))) ∧
    (∃ lraw, _enumerate_loose_configs 30000000 [10000, 5000, 1000]
        (_normalise_stock [10000, 5000, 1000] (some [(10000, 30), (5000, 0), (1000, 0)])) =
      some lraw ∧ ((1 : Int), ([30, 0, 0] : List Int)).2 ∈ lraw) :=
  ⟨⟨by decide, by decide⟩,
    C7_loose_superset 30000000 [10000, 5000, 1000]
      (_normalise_stock [10000, 5000, 1000] (some [(10000, 30), (5000, 0), (1000, 0)]))
      [(1, [30, 0, 0])] (1, [30, 0, 0]) (by decide) (by decide)⟩

/-! Completeness of the loose search and duplicate-freeness of both
enumerations, needed to identify the enumerated lists with the sets of
feasible solutions they list. -/

theorem search_bundles_complete : ∀ (denoms : List Int) (stock : Int → Int)
    (value_left : Int) (c : List Int),
    (∀ e ∈ denoms, 0 < e) →
    c.length = denoms.length → (∀ x ∈ c, 0 ≤ x) →
    dotInt c denoms = value_left →
    List.Forall₂ (fun x e => x ≤ stock e) c denoms → denoms ≠ [] →
    c ∈ _search_bundles stock denoms value_left
  | [], _, _, _, _, _, _, _, _, hne => absurd rfl hne
  | [d], stock, vl, c, hpos, hlen, hnn, hdot, hst, _ => by
      have hd : 0 < d := hpos d (by simp)
      have hdne : d ≠ 0 := ne_of_gt hd
      cases c with
      | nil => simp at hlen
      | cons x xs =>
        cases xs with
        | cons y ys => simp at hlen
        | nil =>
          have hx : x * d = vl := by simpa [dotInt] using hdot
          have hxst : x ≤ stock d := (List.forall₂_cons.mp hst).1
          have hfd : vl.fdiv d = x := by
            rw [← hx]
            exact Int.mul_fdiv_cancel x hdne
          simp only [_search_bundles, if_neg hdne, hfd]
          rw [if_pos ⟨by rw [← hx]; ring, hxst⟩]
          simp
  | d :: d' :: ds, stock, vl, c, hpos, hlen, hnn, hdot, hst, _ => by
      have hd : 0 < d := hpos d (by simp)
      cases c with
      | nil => simp at hlen
      | cons x c' =>
        have hlen' : c'.length = (d' :: ds).length := by simpa using hlen
        obtain ⟨hxst, hst'⟩ := List.forall₂_cons.mp hst
        have hx0 : 0 ≤ x := hnn x (by simp)
        have hnn' : ∀ a ∈ c', 0 ≤ a := fun a ha => hnn a (by simp [ha])
        have hdot_c : x * d + dotInt c' (d' :: ds) = vl := by
          simpa only [dotInt] using hdot
        have hdot' : dotInt c' (d' :: ds) = vl - d * x := by
          have hcomm : x * d = d * x := mul_comm x d
          linarith
        have hdot_nn : 0 ≤ dotInt c' (d' :: ds) :=
          dotInt_nonneg c' (d' :: ds) hnn'
            (fun y hy => le_of_lt (hpos y (by simp [hy])))
        have hxvd : x ≤ vl.fdiv d := by
          rw [Int.fdiv_eq_ediv vl (le_of_lt hd), Int.le_ediv_iff_mul_le hd]
          have hcomm : x * d = d * x := mul_comm x d
          linarith
        have hbmem : x ∈ intRange (min (stock d) (vl.fdiv d) + 1) := by
          rw [mem_intRange]
          refine ⟨hx0, ?_⟩
          have hmin : x ≤ min (stock d) (vl.fdiv d) := le_min hxst hxvd
          omega
        have hrec := search_bundles_complete (d' :: ds) stock (vl - d * x) c'
          (fun e he => hpos e (by simp [he])) hlen' hnn' hdot' hst' (by simp)
        simp only [_search_bundles]
        rw [List.mem_flatMap]
        exact ⟨x, hbmem, List.mem_map.mpr ⟨c', hrec, rfl⟩⟩

theorem intRange_nodup (n : Int) : (intRange n).Nodup :=
  List.Nodup.map (fun _ _ h => Int.ofNat.inj h) (List.nodup_range n.toNat)

theorem search_blocks_nodup : ∀ (denoms : List Int) (stock : Int → Int)
    (bundles_left value_left : Int),
    (_search_blocks stock denoms bundles_left value_left).Nodup
  | [], _, _, _ => by simp [_search_blocks]
  | [d], stock, bl, vl => by
      simp only [_search_blocks]
      split <;> split <;> simp
  | d :: d' :: ds, stock, bl, vl => by
      simp only [_search_blocks]
      rw [List.nodup_flatMap]
      constructor
      · intro b _
        exact List.Nodup.map (fun c1 c2 h => by simpa using h)
          (search_blocks_nodup (d' :: ds) stock (bl - b) (vl - d * b))
      · refine List.Pairwise.imp ?_ (intRange_nodup _)
        intro b1 b2 hne
        intro x hx1 hx2
        rw [List.mem_map] at hx1 hx2
        obtain ⟨c1, _, heq1⟩ := hx1
        obtain ⟨c2, _, heq2⟩ := hx2
        apply hne
        have : b1 :: c1 = b2 :: c2 := heq1.trans heq2.symm
        exact (List.cons.injEq .. ▸ this).1

theorem search_bundles_nodup : ∀ (denoms : List Int) (stock : Int → Int)
    (value_left : Int), (_search_bundles stock denoms value_left).Nodup
  | [], _, _ => by simp [_search_bundles]
  | [d], stock, vl => by
      simp only [_search_bundles]
      split <;> split <;> simp
  | d :: d' :: ds, stock, vl => by
      simp only [_search_bundles]
      rw [List.nodup_flatMap]
      constructor
      · intro b _
        exact List.Nodup.map (fun c1 c2 h => by simpa using h)
          (search_bundles_nodup (d' :: ds) stock (vl - d * b))
      · refine List.Pairwise.imp ?_ (intRange_nodup _)
        intro b1 b2 hne
        intro x hx1 hx2
        rw [List.mem_map] at hx1 hx2
        obtain ⟨c1, _, heq1⟩ := hx1
        obtain ⟨c2, _, heq2⟩ := hx2
        apply hne
        have : b1 :: c1 = b2 :: c2 := heq1.trans heq2.symm
        exact (List.cons.injEq .. ▸ this).1

theorem idealLoop_nodup (stock : Int → Int) (denoms : List Int) (units total : Int) :
    ∀ (fuel : Nat) (start : Int),
    (idealLoop stock denoms units total fuel start).Nodup := by
  intro fuel
  induction fuel with
  | zero => intro start; simp [idealLoop]
  | succ n ih =>
      intro start
      simp only [idealLoop]
      split
      · simp
      · refine List.Nodup.append ?_ (ih (start + 1)) ?_
        · exact List.Nodup.map (fun c1 c2 h => by simpa using h)
            (search_blocks_nodup denoms stock (start * BLOCK_SIZE) units)
        · rw [List.disjoint_left]
          rintro ⟨b, c⟩ hA hR
          rw [List.mem_map] at hA
          obtain ⟨c0, _, heq⟩ := hA
          have hb : start = b := congrArg Prod.fst heq
          obtain ⟨h1, _, _⟩ := idealLoop_sound stock denoms units total n (start + 1) b c hR
          omega

theorem enumerate_ideal_nodup (amount : Int) (denoms : List Int) (stock : Int → Int)
    (raw : List (Int × List Int))
    (heq : _enumerate_ideal_configs amount denoms stock = some raw) : raw.Nodup := by
  simp only [_enumerate_ideal_configs] at heq
  split at heq
  · injection heq with h
    subst h
    simp
  · split at heq
    · exact absurd heq (by simp)
    · split at heq
      · exact absurd heq (by simp)
      · injection heq with h
        subst h
        exact idealLoop_nodup _ _ _ _ _ _

theorem enumerate_loose_nodup (amount : Int) (denoms : List Int) (stock : Int → Int)
    (raw : List (List Int))
    (heq : _enumerate_loose_configs amount denoms stock = some raw) : raw.Nodup := by
  simp only [_enumerate_loose_configs] at heq
  split at heq
  · injection heq with h
    subst h
    simp
  · split at heq
    · exact absurd heq (by simp)
    · injection heq with h
      subst h
      exact search_bundles_nodup _ _ _

theorem CURRENCIES_sorted (cur : Currency) :
    List.Pairwise (· ≥ ·) (CURRENCIES cur) := by
  cases cur <;> decide

theorem CURRENCIES_ne_nil (cur : Currency) : CURRENCIES cur ≠ [] := by
  cases cur <;> decide

theorem enumerate_loose_eq (amount : Int) (denoms : List Int) (stock : Int → Int)
    (d0 : Int) (ds : List Int) (hs : sortDesc denoms = d0 :: ds)
    (hmod : amount.emod BUNDLE_SIZE = 0) :
    _enumerate_loose_configs amount denoms stock =
      some (_search_bundles stock (d0 :: ds) (amount.fdiv BUNDLE_SIZE)) := by
  simp [_enumerate_loose_configs, hs, hmod]

theorem enumerate_ideal_some_of (amount : Int) (denoms : List Int) (stock : Int → Int)
    (d0 : Int) (ds : List Int) (hs : sortDesc denoms = d0 :: ds)
    (hsm : ¬listMin d0 ds = 0) :
    ∃ raw, _enumerate_ideal_configs amount denoms stock = some raw := by
  by_cases hmod : amount.emod BUNDLE_SIZE = 0
  · refine ⟨idealLoop stock (d0 :: ds) (amount.fdiv BUNDLE_SIZE)
      (((d0 :: ds).map stock).sum)
      ((min (amount.fdiv (listMin d0 ds * BUNDLE_SIZE * BLOCK_SIZE))
        ((((d0 :: ds).map stock).sum).fdiv BLOCK_SIZE)).toNat) 1, ?_⟩
    simp only [_enumerate_ideal_configs, hs, hmod]
    simp [hsm]
  · exact ⟨[], enumerate_ideal_indivisible _ _ _ hmod⟩

theorem find_ideal_returns (amount : Int) (cur : Currency) (maxv : Nat)
    (bs : Option (List (Int × Int))) :
    ∃ l, find_ideal_block_variants amount cur maxv bs = some l := by
  obtain ⟨raw, hraw⟩ : ∃ raw, _enumerate_ideal_configs amount (CURRENCIES cur)
      (_normalise_stock (CURRENCIES cur) bs) = some raw := by
    cases cur with
    | USD => exact enumerate_ideal_some_of amount _ _ 100 [50, 20, 10] (by decide) (by decide)
    | EUR => exact enumerate_ideal_some_of amount _ _ 100 [50, 20] (by decide) (by decide)
    | JPY => exact enumerate_ideal_some_of amount _ _ 10000 [5000, 1000] (by decide) (by decide)
  have hguard : raw.any (fun tpl => tpl.2.sum == 0) = false := by
    rw [List.any_eq_false]
    intro p hp
    obtain ⟨_, hb, hsearch⟩ := enumerate_ideal_sound _ _ _ raw p.1 p.2 hraw
      (by simpa using hp)
    obtain ⟨_, hsum, _, _⟩ := search_blocks_sound _ _ _ _ _ hsearch
    simp only [beq_iff_eq, hsum]
    show ¬ p.1 * BLOCK_SIZE = 0
    rw [show BLOCK_SIZE = (30 : Int) from rfl]
    omega
  refine ⟨(sortScored (fun tpl => _score_ideal tpl.1 tpl.2 (CURRENCIES cur)) raw).take maxv, ?_⟩
  simp only [find_ideal_block_variants, hraw]
  rw [if_neg (by simp [hguard])]

theorem grouped_feasible_iff (amount : Int) (cur : Currency) (stock : Int → Int)
    (raw : List (Int × List Int))
    (hraw : _enumerate_ideal_configs amount (CURRENCIES cur) stock = some raw)
    (blocks : Int) (config : List Int) :
    (blocks, config) ∈ raw ↔
      (amount.emod BUNDLE_SIZE = 0 ∧ 1 ≤ blocks ∧
       config.length = (CURRENCIES cur).length ∧ (∀ x ∈ config, 0 ≤ x) ∧
       config.sum = blocks * BLOCK_SIZE ∧
       dotInt config (CURRENCIES cur) = amount.fdiv BUNDLE_SIZE ∧
       List.Forall₂ (fun x d => x ≤ stock d) config (CURRENCIES cur)) := by
  constructor
  · intro hmem
    obtain ⟨hmod, hb, hsearch⟩ := enumerate_ideal_sound amount (CURRENCIES cur) stock raw
      blocks config hraw hmem
    have hnn := search_blocks_nonneg _ _ _ _ _
      (mul_nonneg (by omega) (by norm_num [BLOCK_SIZE])) hsearch
    rw [sortDesc_CURRENCIES] at hsearch
    obtain ⟨hlen, hsum, hdot, hst⟩ := search_blocks_sound _ _ _ _ _ hsearch
    exact ⟨hmod, hb, hlen, hnn, hsum, hdot, hst⟩
  · rintro ⟨hmod, hb, hlen, hnn, hsum, hdot, hst⟩
    obtain ⟨raw', hraw', hmem, _, _⟩ := enumerate_ideal_complete amount (CURRENCIES cur)
      stock blocks config (CURRENCIES_pos cur) (CURRENCIES_sorted cur)
      (CURRENCIES_ne_nil cur) hmod hb hlen hnn hsum hdot hst
    have h2 := hraw.symm.trans hraw'
    injection h2 with h3
    rw [h3]
    exact hmem

theorem loose_feasible_iff (amount : Int) (cur : Currency) (stock : Int → Int)
    (raw : List (List Int))
    (hraw : _enumerate_loose_configs amount (CURRENCIES cur) stock = some raw)
    (config : List Int) :
    config ∈ raw ↔
      (amount.emod BUNDLE_SIZE = 0 ∧ config.length = (CURRENCIES cur).length ∧
       (∀ x ∈ config, 0 ≤ x) ∧
       dotInt config (CURRENCIES cur) = amount.fdiv BUNDLE_SIZE ∧
       List.Forall₂ (fun x d => x ≤ stock d) config (CURRENCIES cur)) := by
  constructor
  · intro hmem
    obtain ⟨hmod, hsearch⟩ := enumerate_loose_sound amount (CURRENCIES cur) stock raw
      config hraw hmem
    have hnn := loose_config_nonneg amount cur stock config hsearch
    rw [sortDesc_CURRENCIES] at hsearch
    obtain ⟨hlen, hdot, hst⟩ := search_bundles_sound _ _ _ _ hsearch
    exact ⟨hmod, hlen, hnn, hdot, hst⟩
  · rintro ⟨hmod, hlen, hnn, hdot, hst⟩
    have hsearch := search_bundles_complete (CURRENCIES cur) stock
      (amount.fdiv BUNDLE_SIZE) config (CURRENCIES_pos cur) hlen hnn hdot hst
      (CURRENCIES_ne_nil cur)
    cases hcur : CURRENCIES cur with
    | nil => exact absurd hcur (CURRENCIES_ne_nil cur)
    | cons d0 ds =>
        have hs : sortDesc (CURRENCIES cur) = d0 :: ds := by
          rw [sortDesc_CURRENCIES, hcur]
        have heq := enumerate_loose_eq amount (CURRENCIES cur) stock d0 ds hs hmod
        have h2 := hraw.symm.trans heq
        injection h2 with h3
        rw [h3]
        rw [hcur] at hsearch
        exact hsearch

/-- C8 (amended): for every amount, currency, stock and max_variants,
`find_ideal_block_variants` always returns a list, and its length equals
`min max_variants (total number of feasible grouped solutions)`: the grouped
enumeration is duplicate-free and contains exactly the pairs
`(blocks, config)` with `blocks ≥ 1` satisfying the grouping invariant,
exactness and the stock bounds, so its length is that total.
`find_loose_bundle_variants` satisfies the same equality against the
duplicate-free loose enumeration — which lists exactly the feasible loose
configurations — whenever it returns a list; at amount 0 it raises instead
of returning the required list (see the counterexample).  Neither returned
list ever exceeds `max_variants`. -/
theorem C8_bounded_output_amended (amount : Int) (cur : Currency) (maxv : Nat)
    (bs : Option (List (Int × Int))) :
    (∃ l raw, find_ideal_block_variants amount cur maxv bs = some l ∧
      _enumerate_ideal_configs amount (CURRENCIES cur)
        (_normalise_stock (CURRENCIES cur) bs) = some raw ∧
      raw.Nodup ∧
      (∀ blocks config, (blocks, config) ∈ raw ↔
        (amount.emod BUNDLE_SIZE = 0 ∧ 1 ≤ blocks ∧
         config.length = (CURRENCIES cur).length ∧ (∀ x ∈ config, 0 ≤ x) ∧
         config.sum = blocks * BLOCK_SIZE ∧
         dotInt config (CURRENCIES cur) = amount.fdiv BUNDLE_SIZE ∧
         List.Forall₂ (fun x d => x ≤ _normalise_stock (CURRENCIES cur) bs d)
           config (CURRENCIES cur))) ∧
      l.length = min maxv raw.length ∧ l.length ≤ maxv) ∧
    (∀ l, find_loose_bundle_variants amount cur maxv bs = some l →
      ∃ raw, _enumerate_loose_configs amount (CURRENCIES cur)
          (_normalise_stock (CURRENCIES cur) bs) = some raw ∧
        raw.Nodup ∧
        (∀ config, config ∈ raw ↔
          (amount.emod BUNDLE_SIZE = 0 ∧
           config.length = (CURRENCIES cur).length ∧ (∀ x ∈ config, 0 ≤ x) ∧
           dotInt config (CURRENCIES cur) = amount.fdiv BUNDLE_SIZE ∧
           List.Forall₂ (fun x d => x ≤ _normalise_stock (CURRENCIES cur) bs d)
             config (CURRENCIES cur))) ∧
        l.length = min maxv raw.length ∧ l.length ≤ maxv) := by
  constructor
  · obtain ⟨l, hl⟩ := find_ideal_returns amount cur maxv bs
    obtain ⟨raw, hraw, _, hlen⟩ := find_ideal_mem amount cur maxv bs l hl
    exact ⟨l, raw, hl, hraw, enumerate_ideal_nodup _ _ _ raw hraw,
      fun blocks config => grouped_feasible_iff amount cur _ raw hraw blocks config,
      hlen, by omega⟩
  · intro l hl
    obtain ⟨raw, hraw, _, hlen⟩ := find_loose_mem amount cur maxv bs l hl
    exact ⟨raw, hraw, enumerate_loose_nodup _ _ _ raw hraw,
      fun config => loose_feasible_iff amount cur _ raw hraw config,
      hlen, by omega⟩

/-- C8 witness: the amended bounded-output property exercised at a concrete
loose call that returns exactly one solution with max_variants 5. -/
theorem C8_bounded_output_witness :
    find_loose_bundle_variants 300000 Currency.USD 5
        (some [(100, 30), (50, 0), (20, 0), (10, 0)]) = some [[30, 0, 0, 0]] ∧
    (∃ raw, _enumerate_loose_configs 300000 (CURRENCIES Currency.USD)
        (_normalise_stock (CURRENCIES Currency.USD)
          (some [(100, 30), (50, 0), (20, 0), (10, 0)])) = some raw ∧
      raw.Nodup ∧
      (∀ config, config ∈ raw ↔
        ((300000 : Int).emod BUNDLE_SIZE = 0 ∧
         config.length = (CURRENCIES Currency.USD).length ∧ (∀ x ∈ config, 0 ≤ x) ∧
         dotInt config (CURRENCIES Currency.USD) = (300000 : Int).fdiv BUNDLE_SIZE ∧
         List.Forall₂ (fun x d => x ≤ _normalise_stock (CURRENCIES Currency.USD)
             (some [(100, 30), (50, 0), (20, 0), (10, 0)]) d)
           config (CURRENCIES Currency.USD))) ∧
      ([[30, 0, 0, 0]] : List (List Int)).length = min 5 raw.length ∧
      ([[30, 0, 0, 0]] : List (List Int)).length ≤ 5) :=
  ⟨by decide,
    (C8_bounded_output_amended 300000 Currency.USD 5
      (some [(100, 30), (50, 0), (20, 0), (10, 0)])).2
      [[30, 0, 0, 0]] (by decide)⟩
